import Mathlib

/-!
Verification of the Mintstats statistics library (mintstats.ts).

The library computes descriptive statistics over a JavaScript array of
numbers, or of records projected through a field key.  JavaScript numbers
are idealised as rationals; the runtime values the library inspects are
modelled by an inductive type.  Fallible operations return Except over the
library's error taxonomy.  Math.random is modelled by an explicit stream of
pivot choices, and Math.sqrt (not rational-valued) by an explicit function
parameter.
-/

namespace Mintstats

/-- A JavaScript runtime value, as far as the library inspects one:
finite numbers (idealised as rationals), the non-finite numbers NaN and
Infinity, null, undefined, strings, booleans, records and arrays. -/
inductive JSVal where
  | vnum (q : ℚ)
  | vnan
  | vinf
  | vnull
  | vundefined
  | vstr (s : String)
  | vbool (b : Bool)
  | vobj (fields : List (String × JSVal))
  | varr (elems : List JSVal)

/-- The library's error taxonomy: InvalidInputKind is the TypeError for a
non-array input, NonNumericValue the TypeError carrying the offending index
and value, InvalidRange the RangeError for a percentile outside 0..100, and
InsufficientData the RangeError for a non-positive variance divisor. -/
inductive StatError where
  | invalidInputKind
  | nonNumericValue (idx : Nat) (v : JSVal)
  | invalidRange
  | insufficientData

/-- value === null || value === undefined. -/
def isNullOrUndefined : JSVal → Bool
  | .vnull => true
  | .vundefined => true
  | _ => false

/-- typeof value === 'number' && isFinite(value): the finite numbers are
exactly the vnum values; vnan and vinf have typeof number but fail
isFinite, so they are rejected together with the non-numbers. -/
def finiteNum? : JSVal → Option ℚ
  | .vnum q => some q
  | _ => none

/-- obj[key]: on a record the first binding for the key, undefined when the
field is missing.  JavaScript would throw on a null or undefined receiver,
but the TypeScript signature (ObjectArray = DataObject[]) excludes such
elements, so any non-record receiver is modelled as projecting to
undefined. -/
def getField : JSVal → String → JSVal
  | .vobj fields, k =>
    match fields.find? (fun f => f.1 = k) with
    | some f => f.2
    | none => .vundefined
  | _, _ => .vundefined

/-- The projected sequence, key ? arr.map(obj => obj[key]) : arr.  The
empty string is falsy in JavaScript, so an empty key leaves the array
unprojected. -/
def mappedOf (elems : List JSVal) (key : Option String) : List JSVal :=
  match key with
  | some k => if k.isEmpty then elems else elems.map (fun v => getField v k)
  | none => elems

/-- The validation loop of extractNumbers: null and undefined are skipped,
the first remaining value that is not a finite number aborts with
NonNumericValue at its index, and the finite numbers are collected in
order. -/
def extractGo : List JSVal → Nat → Except StatError (List ℚ)
  | [], _ => .ok []
  | v :: rest, i =>
    if isNullOrUndefined v then extractGo rest (i + 1)
    else
      match finiteNum? v with
      | some q =>
        match extractGo rest (i + 1) with
        | .ok tl => .ok (q :: tl)
        | .error e => .error e
      | none => .error (.nonNumericValue i v)

/-- extractNumbers: reject non-arrays, return early on an empty array,
otherwise project through the optional key and run the validation loop. -/
def extractNumbers (input : JSVal) (key : Option String) : Except StatError (List ℚ) :=
  match input with
  | .varr elems =>
    if elems.length = 0 then .ok []
    else extractGo (mappedOf elems key) 0
  | _ => .error .invalidInputKind

/-- Math.round on a finite value: round half toward positive infinity. -/
def jsRound (q : ℚ) : ℤ := Rat.floor (q + 1 / 2)

/-- Math.ceil on a finite value. -/
def jsCeil (q : ℚ) : ℤ := -Rat.floor (-q)

/-- toFixedNumber: Math.round(value * 10^precision) / 10^precision. -/
def toFixedNumber (value : ℚ) (precision : Nat := 10) : ℚ :=
  (jsRound (value * 10 ^ precision) : ℚ) / 10 ^ precision

/-- A JavaScript numeric sort, [...xs].sort((a, b) => a - b): sort
ascending. -/
def sortList (l : List ℚ) : List ℚ := List.insertionSort (· ≤ ·) l

/-- arr[i] on a numeric working array; every use in the library is in
range, so the out-of-range default is never observed under the proved
preconditions. -/
def lget (l : List ℚ) (i : Nat) : ℚ := l.getD i 0

/-- The swap helper of quickselect, [arr[i], arr[j]] = [arr[j], arr[i]]:
both cells are read before either is written. -/
def lswap (l : List ℚ) (i j : Nat) : List ℚ := (l.set i (lget l j)).set j (lget l i)

/-- medianOf: the median of a pre-sorted array, the middle element for an
odd length and the average of the two middle elements for an even one. -/
def medianOf (arr : List ℚ) : ℚ :=
  let mid := arr.length / 2
  if arr.length % 2 = 1 then lget arr mid
  else (lget arr (mid - 1) + lget arr mid) / 2

/-- nums.reduce((a, b) => a + b, 0). -/
def sumList (l : List ℚ) : ℚ := l.foldl (fun a b => a + b) 0

/-- mean: 0 on an empty extraction, otherwise the rounded average. -/
def mean (input : JSVal) (key : Option String) : Except StatError ℚ :=
  match extractNumbers input key with
  | .error e => .error e
  | .ok nums =>
    if nums.length = 0 then .ok 0
    else .ok (toFixedNumber (sumList nums / nums.length))

/-- The partition scan of quickselect: elements strictly below the pivot
value are swapped to the front, storeIndex marking the boundary. -/
def partLoop (pivot : ℚ) (right : Nat) (arr : List ℚ) (s i : Nat) : List ℚ × Nat :=
  if i < right then
    if lget arr i < pivot then partLoop pivot right (lswap arr s i) (s + 1) (i + 1)
    else partLoop pivot right arr s (i + 1)
  else (arr, s)
termination_by right - i

/-- One iteration body of quickselect: read the pivot value, move it to the
right end, scan, then swap it into the final storeIndex position.  Returns
the partitioned array and the storeIndex. -/
def qsPartition (arr : List ℚ) (left right pivotIndex : Nat) : List ℚ × Nat :=
  let pivotValue := lget arr pivotIndex
  let arr1 := lswap arr pivotIndex right
  let p := partLoop pivotValue right arr1 left left
  (lswap p.1 right p.2, p.2)

/-- The quickselect loop, instrumented with fuel (right - left + 2 always
suffices, as proved below) and a step counter t consuming the pivot stream.
pick models Math.random: at step t the pivot index is
left + pick t % (right - left + 1), which ranges over exactly the indices
Math.floor(Math.random() * (right - left + 1)) + left can produce.  The
Bool in the result records whether the fallback return after the loop was
taken (false means the target-rank-found branch returned). -/
def qsLoop (pick : Nat → Nat) : Nat → Nat → List ℚ → Nat → Nat → Nat → Option (ℚ × List ℚ × Nat × Bool)
  | 0, _, _, _, _, _ => none
  | fuel + 1, t, arr, k, left, right =>
    if left ≤ right then
      let pivotIndex := left + pick t % (right - left + 1)
      let p := qsPartition arr left right pivotIndex
      if k = p.2 then some (lget p.1 k, p.1, t + 1, false)
      else if k < p.2 then qsLoop pick fuel (t + 1) p.1 k left (p.2 - 1)
      else qsLoop pick fuel (t + 1) p.1 k (p.2 + 1) right
    else some (lget arr left, arr, t, true)

/-- quickselect(arr, k, left, right): value, final array and final step
counter.  The none branch of the match is dead, since the loop always
returns within right - left + 2 iterations. -/
def quickselect (pick : Nat → Nat) (t : Nat) (arr : List ℚ) (k left right : Nat) : ℚ × List ℚ × Nat :=
  match qsLoop pick (right - left + 2) t arr k left right with
  | some r => (r.1, r.2.1, r.2.2.1)
  | none => (0, arr, t)

/-- The size threshold below which median sorts instead of selecting. -/
def THRESHOLD : Nat := 32

/-- median with the hybrid strategy: sort below the threshold; at or above
it, quickselect the middle rank (odd count), or both middle ranks sharing
one working copy (even count, the second selection starting at left = mid
over the already partitioned copy) and round the average. -/
def median (pick : Nat → Nat) (t : Nat) (input : JSVal) (key : Option String) : Except StatError ℚ :=
  match extractNumbers input key with
  | .error e => .error e
  | .ok nums =>
    if nums.length = 0 then .ok 0
    else if nums.length < THRESHOLD then .ok (medianOf (sortList nums))
    else
      let mid := nums.length / 2
      if nums.length % 2 ≠ 0 then .ok (quickselect pick t nums mid 0 (nums.length - 1)).1
      else
        let r1 := quickselect pick t nums (mid - 1) 0 (nums.length - 1)
        let r2 := quickselect pick r1.2.2 r1.2.1 mid mid (r1.2.1.length - 1)
        .ok (toFixedNumber ((r1.1 + r2.1) / 2))

/-- The sort-based reference median (sortBasedMedian in the benchmark):
full sort, then the middle element or the unrounded average of the two
middle elements. -/
def sortBasedMedian (l : List ℚ) : ℚ :=
  if l.length = 0 then 0 else medianOf (sortList l)

/-- freq.get(n), 0 when absent. -/
def lookupC : List (ℚ × Nat) → ℚ → Nat
  | [], _ => 0
  | e :: rest, n => if e.1 = n then e.2 else lookupC rest n

/-- freq.set(n, c): update in place, preserving insertion order, appending
a fresh binding when the key is absent. -/
def freqSet : List (ℚ × Nat) → ℚ → Nat → List (ℚ × Nat)
  | [], n, c => [(n, c)]
  | e :: rest, n, c => if e.1 = n then (n, c) :: rest else e :: freqSet rest n c

/-- The frequency-counting loop of mode, tracking the maximum frequency
seen so far. -/
def modeFold : List ℚ → List (ℚ × Nat) → Nat → List (ℚ × Nat) × Nat
  | [], freq, maxFreq => (freq, maxFreq)
  | n :: rest, freq, maxFreq =>
    let c := lookupC freq n + 1
    modeFold rest (freqSet freq n c) (if maxFreq < c then c else maxFreq)

/-- mode: count frequencies, keep the entries of maximal frequency, and
return their values sorted ascending. -/
def mode (input : JSVal) (key : Option String) : Except StatError (List ℚ) :=
  match extractNumbers input key with
  | .error e => .error e
  | .ok nums =>
    if nums.length = 0 then .ok []
    else
      let p := modeFold nums [] 0
      .ok (sortList ((p.1.filter (fun e => e.2 = p.2)).map (fun e => e.1)))

/-- The scan of range: running minimum and maximum with mutually exclusive
if / else-if branches. -/
def rangeFold : List ℚ → ℚ → ℚ → ℚ × ℚ
  | [], mn, mx => (mn, mx)
  | x :: rest, mn, mx =>
    if x < mn then rangeFold rest x mx
    else if mx < x then rangeFold rest mn x
    else rangeFold rest mn mx

/-- range: max - min, 0 on an empty extraction. -/
def range (input : JSVal) (key : Option String) : Except StatError ℚ :=
  match extractNumbers input key with
  | .error e => .error e
  | .ok nums =>
    match nums with
    | [] => .ok 0
    | x :: rest =>
      let p := rangeFold rest x x
      .ok (p.2 - p.1)

/-- nums.reduce((sum, num) => sum + Math.pow(num - meanValue, 2), 0). -/
def sumSqDev (l : List ℚ) (m : ℚ) : ℚ := l.foldl (fun acc x => acc + (x - m) ^ 2) 0

/-- variance: 0 on an empty extraction, InsufficientData when the divisor
(count - 1 in sample mode, count otherwise) is non-positive, else the
rounded sum of squared deviations over the divisor. -/
def variance (input : JSVal) (key : Option String) (isSample : Bool) : Except StatError ℚ :=
  match extractNumbers input key with
  | .error e => .error e
  | .ok nums =>
    if nums.length = 0 then .ok 0
    else
      let divisor : ℤ := if isSample then (nums.length : ℤ) - 1 else (nums.length : ℤ)
      if divisor ≤ 0 then .error .insufficientData
      else .ok (toFixedNumber (sumSqDev nums (sumList nums / nums.length) / (divisor : ℚ)))

/-- stdev: the same guard and variance computation, then the rounded square
root of the rounded variance.  Math.sqrt is not rational-valued, so it is
an explicit parameter; no claim below depends on its values. -/
def stdev (sqrtFn : ℚ → ℚ) (input : JSVal) (key : Option String) (isSample : Bool) : Except StatError ℚ :=
  match extractNumbers input key with
  | .error e => .error e
  | .ok nums =>
    if nums.length = 0 then .ok 0
    else
      let divisor : ℤ := if isSample then (nums.length : ℤ) - 1 else (nums.length : ℤ)
      if divisor ≤ 0 then .error .insufficientData
      else .ok (toFixedNumber (sqrtFn (toFixedNumber (sumSqDev nums (sumList nums / nums.length) / (divisor : ℚ)))))

/-- Math.min(...nums) over a non-empty spread. -/
def jsMin : List ℚ → ℚ
  | [] => 0
  | x :: rest => rest.foldl min x

/-- Math.max(...nums) over a non-empty spread. -/
def jsMax : List ℚ → ℚ
  | [] => 0
  | x :: rest => rest.foldl max x

/-- percentile: validate p first, then extract; empty extraction gives 0,
p = 0 and p = 100 return min and max directly, otherwise interpolate
between the two neighbouring ranks of the sorted copy and round. -/
def percentile (input : JSVal) (p : ℚ) (key : Option String) : Except StatError ℚ :=
  if p < 0 ∨ 100 < p then .error .invalidRange
  else
    match extractNumbers input key with
    | .error e => .error e
    | .ok nums =>
      if nums.length = 0 then .ok 0
      else if p = 0 then .ok (jsMin nums)
      else if p = 100 then .ok (jsMax nums)
      else
        let sorted := sortList nums
        let index : ℚ := p / 100 * ((sorted.length : ℚ) - 1)
        let lowerIndex : ℤ := Rat.floor index
        let upperIndex : ℤ := jsCeil index
        if lowerIndex = upperIndex then .ok (lget sorted lowerIndex.toNat)
        else
          let lowerValue := lget sorted lowerIndex.toNat
          let upperValue := lget sorted upperIndex.toNat
          let weight := index - (lowerIndex : ℚ)
          .ok (toFixedNumber (lowerValue * (1 - weight) + upperValue * weight))

/-- The loop invariant of quickselect relative to a window lo..hi: every
cell strictly left of the window is bounded above by every cell from lo on,
and every cell strictly right of the window bounds every cell up to hi.
It holds vacuously for the initial full window. -/
def OutBound (arr : List ℚ) (lo hi : Nat) : Prop :=
  (∀ i j, i < lo → lo ≤ j → j < arr.length → lget arr i ≤ lget arr j) ∧
  (∀ i j, i ≤ hi → hi < j → j < arr.length → lget arr i ≤ lget arr j)

/-- The invariant of mode's frequency-counting loop after processing a
prefix: the table's keys are distinct, each entry holds the exact
occurrence count of its key in the prefix and its key occurs there, every
processed value has an entry, and maxFreq bounds every count. -/
def ModeInv (processed : List ℚ) (freq : List (ℚ × Nat)) (maxFreq : Nat) : Prop :=
  (freq.map Prod.fst).Nodup ∧
  (∀ e ∈ freq, e.2 = processed.count e.1 ∧ e.1 ∈ processed) ∧
  (∀ x ∈ processed, x ∈ freq.map Prod.fst) ∧
  (∀ x, processed.count x ≤ maxFreq)

/-- The spec-side characterisation of a bad projected value: neither
null/undefined (which are skipped) nor a finite number. -/
def firstInvalid : List JSVal → Nat → Option (Nat × JSVal)
  | [], _ => none
  | v :: rest, i =>
    if isNullOrUndefined v || (finiteNum? v).isSome then firstInvalid rest (i + 1)
    else some (i, v)

/-- The spec-side description of a successful extraction: the finite
numbers in order, null/undefined and nothing else dropped. -/
def keptNumbers (l : List JSVal) : List ℚ := l.filterMap finiteNum?

/-! ### A store model for the frame claim.  The caller's input collection
lives in a store of array cells addressed by allocation order; the spread
copies ([...nums]) made by median, mode and percentile are fresh cells,
and the in-place mutations of sort and quickselect write only to those
fresh cells.  The claim is that the caller's cell is never written. -/

/-- A store of JavaScript array cells. -/
abbrev Store := List (List JSVal)

/-- Read the array cell at pointer p. -/
def readA (σ : Store) (p : Nat) : List JSVal := σ.getD p []

/-- Overwrite the array cell at pointer p. -/
def writeA (σ : Store) (p : Nat) (l : List JSVal) : Store := σ.set p l

/-- Allocate a fresh cell holding l: the new store and the new pointer. -/
def alloc (σ : Store) (l : List JSVal) : Store × Nat := (σ ++ [l], σ.length)

/-- A numeric working array stored as a cell of number values. -/
def encodeNums (l : List ℚ) : List JSVal := l.map JSVal.vnum

/-- A numeric working array read back from its cell. -/
def decodeNums (l : List JSVal) : List ℚ :=
  l.map (fun v => match v with | .vnum q => q | _ => 0)

/-- quickselect acting on the working cell at p: read the cell, run the
in-place loop, write the mutated array back to the same cell. -/
def quickselectS (pick : Nat → Nat) (t : Nat) (σ : Store) (p : Nat)
    (k left right : Nat) : ℚ × Store × Nat :=
  let r := quickselect pick t (decodeNums (readA σ p)) k left right
  (r.1, writeA σ p (encodeNums r.2.1), r.2.2)

/-- In-place ascending sort of the working cell at p. -/
def sortS (σ : Store) (p : Nat) : Store :=
  writeA σ p (encodeNums (sortList (decodeNums (readA σ p))))

/-- mean over the array cell at p: extraction and the reductions only
read; no cell is written. -/
def meanS (σ : Store) (p : Nat) (key : Option String) : Except StatError ℚ × Store :=
  (mean (.varr (readA σ p)) key, σ)

/-- range over the array cell at p: a read-only linear scan. -/
def rangeS (σ : Store) (p : Nat) (key : Option String) : Except StatError ℚ × Store :=
  (range (.varr (readA σ p)) key, σ)

/-- variance over the array cell at p: read-only reductions. -/
def varianceS (σ : Store) (p : Nat) (key : Option String) (isSample : Bool) :
    Except StatError ℚ × Store :=
  (variance (.varr (readA σ p)) key isSample, σ)

/-- stdev over the array cell at p: read-only reductions. -/
def stdevS (sqrtFn : ℚ → ℚ) (σ : Store) (p : Nat) (key : Option String)
    (isSample : Bool) : Except StatError ℚ × Store :=
  (stdev sqrtFn (.varr (readA σ p)) key isSample, σ)

/-- mode over the cell at p: the result array res is a fresh cell sorted
in place before being returned. -/
def modeS (σ : Store) (p : Nat) (key : Option String) :
    Except StatError (List ℚ) × Store :=
  match extractNumbers (.varr (readA σ p)) key with
  | .error e => (.error e, σ)
  | .ok nums =>
    if nums.length = 0 then (.ok [], σ)
    else
      let f := modeFold nums [] 0
      let res := (f.1.filter (fun e => e.2 = f.2)).map (fun e => e.1)
      let a := alloc σ (encodeNums res)
      let σ2 := sortS a.1 a.2
      (.ok (decodeNums (readA σ2 a.2)), σ2)

/-- median over the cell at p: the sorted copy of the small branch and the
quickselect working copy of the large branch are fresh cells; in the even
branch one shared fresh copy is mutated in place by both selections. -/
def medianS (pick : Nat → Nat) (t : Nat) (σ : Store) (p : Nat) (key : Option String) :
    Except StatError ℚ × Store :=
  match extractNumbers (.varr (readA σ p)) key with
  | .error e => (.error e, σ)
  | .ok nums =>
    if nums.length = 0 then (.ok 0, σ)
    else if nums.length < THRESHOLD then
      let a := alloc σ (encodeNums nums)
      let σ2 := sortS a.1 a.2
      (.ok (medianOf (decodeNums (readA σ2 a.2))), σ2)
    else
      let mid := nums.length / 2
      if nums.length % 2 ≠ 0 then
        let a := alloc σ (encodeNums nums)
        let r := quickselectS pick t a.1 a.2 mid 0 (nums.length - 1)
        (.ok r.1, r.2.1)
      else
        let a := alloc σ (encodeNums nums)
        let r1 := quickselectS pick t a.1 a.2 (mid - 1) 0 (nums.length - 1)
        let r2 := quickselectS pick r1.2.2 r1.2.1 a.2 mid mid
          ((decodeNums (readA r1.2.1 a.2)).length - 1)
        (.ok (toFixedNumber ((r1.1 + r2.1) / 2)), r2.2.1)

/-- percentile over the cell at p: the sorted copy of the interpolation
path is a fresh cell sorted in place. -/
def percentileS (σ : Store) (p : Nat) (pct : ℚ) (key : Option String) :
    Except StatError ℚ × Store :=
  if pct < 0 ∨ 100 < pct then (.error .invalidRange, σ)
  else
    match extractNumbers (.varr (readA σ p)) key with
    | .error e => (.error e, σ)
    | .ok nums =>
      if nums.length = 0 then (.ok 0, σ)
      else if pct = 0 then (.ok (jsMin nums), σ)
      else if pct = 100 then (.ok (jsMax nums), σ)
      else
        let a := alloc σ (encodeNums nums)
        let σ2 := sortS a.1 a.2
        let sorted := decodeNums (readA σ2 a.2)
        let index : ℚ := pct / 100 * ((sorted.length : ℚ) - 1)
        let lowerIndex : ℤ := Rat.floor index
        let upperIndex : ℤ := jsCeil index
        if lowerIndex = upperIndex then (.ok (lget sorted lowerIndex.toNat), σ2)
        else
          (.ok (toFixedNumber (lget sorted lowerIndex.toNat * (1 - (index - (lowerIndex : ℚ))) +
            lget sorted upperIndex.toNat * (index - (lowerIndex : ℚ)))), σ2)

/-! ### Rounding lemmas -/

theorem jsRound_intCast (n : ℤ) : jsRound (n : ℚ) = n := by
  show Rat.floor ((n : ℚ) + 1 / 2) = n
  have h : Rat.floor ((n : ℚ) + 1 / 2) = ⌊(n : ℚ) + 1 / 2⌋ := rfl
  rw [h, add_comm, Int.floor_add_int]
  norm_num

theorem toFixedNumber_zero (p : Nat) : toFixedNumber 0 p = 0 := by
  unfold toFixedNumber
  rw [zero_mul]
  have h : ((0 : ℤ) : ℚ) = (0 : ℚ) := by norm_num
  rw [← h, jsRound_intCast]
  norm_num

theorem toFixedNumber_idem (v : ℚ) (p : Nat) :
    toFixedNumber (toFixedNumber v p) p = toFixedNumber v p := by
  unfold toFixedNumber
  have hf : (10 : ℚ) ^ p ≠ 0 := by positivity
  rw [div_mul_cancel₀ _ hf, jsRound_intCast]

/-! ### C4.  The claim that every returned result is a fixed point of the
rounding utility fails: median's small-count branch (and its odd
quickselect branch, and percentile's direct branches) return selected
input values unrounded.  The amended claim: every result of mean,
variance and stdev is a fixed point of rounding at precision 10. -/

/-- C4 (amended): every value successfully returned by mean, variance or
stdev is a fixed point of toFixedNumber at precision 10.  (median and
percentile do not round on their selection branches; see the
counterexample.) -/
theorem rounded_results_are_fixed_points
    (input : JSVal) (key : Option String) (sample : Bool) (sqrtFn : ℚ → ℚ) (r : ℚ)
    (h : mean input key = .ok r ∨ variance input key sample = .ok r ∨
      stdev sqrtFn input key sample = .ok r) :
    toFixedNumber r 10 = r := by
  rcases h with h | h | h
  · rw [mean] at h
    cases hE : extractNumbers input key with
    | error e => rw [hE] at h; exact absurd h (by simp)
    | ok nums =>
      rw [hE] at h
      dsimp only at h
      by_cases h0 : nums.length = 0
      · rw [if_pos h0] at h
        injection h with h2
        rw [← h2]
        exact toFixedNumber_zero 10
      · rw [if_neg h0] at h
        injection h with h2
        rw [← h2]
        exact toFixedNumber_idem _ 10
  · rw [variance] at h
    cases hE : extractNumbers input key with
    | error e => rw [hE] at h; exact absurd h (by simp)
    | ok nums =>
      rw [hE] at h
      dsimp only at h
      by_cases h0 : nums.length = 0
      · rw [if_pos h0] at h
        injection h with h2
        rw [← h2]
        exact toFixedNumber_zero 10
      · rw [if_neg h0] at h
        by_cases hd : (if sample = true then (nums.length : ℤ) - 1 else (nums.length : ℤ)) ≤ 0
        · rw [if_pos hd] at h
          exact absurd h (by simp)
        · rw [if_neg hd] at h
          injection h with h2
          rw [← h2]
          exact toFixedNumber_idem _ 10
  · rw [stdev] at h
    cases hE : extractNumbers input key with
    | error e => rw [hE] at h; exact absurd h (by simp)
    | ok nums =>
      rw [hE] at h
      dsimp only at h
      by_cases h0 : nums.length = 0
      · rw [if_pos h0] at h
        injection h with h2
        rw [← h2]
        exact toFixedNumber_zero 10
      · rw [if_neg h0] at h
        by_cases hd : (if sample = true then (nums.length : ℤ) - 1 else (nums.length : ℤ)) ≤ 0
        · rw [if_pos hd] at h
          exact absurd h (by simp)
        · rw [if_neg hd] at h
          injection h with h2
          rw [← h2]
          exact toFixedNumber_idem _ 10

/-- C4 witness: the theorem applied to mean over an empty array. -/
theorem rounded_results_witness : toFixedNumber 0 10 = 0 :=
  rounded_results_are_fixed_points (.varr []) none true id 0 (Or.inl rfl)

/-- C4 counterexample: median of the singleton 1/10^11 returns that value
unrounded, and it is not a fixed point of rounding at precision 10 (its
rounding is 0), refuting the claim that every returned result is rounded. -/
theorem median_unrounded_counterexample :
    median (fun _ => 0) 0 (.varr [.vnum (1 / 10 ^ 11)]) none = .ok (1 / 10 ^ 11) ∧
      toFixedNumber (1 / 10 ^ 11) 10 ≠ 1 / 10 ^ 11 := by
  constructor
  · rfl
  · norm_num [toFixedNumber, jsRound, Rat.floor_def']

/-! ### C2 / C3.  Variance and stdev error behaviour.  The code returns 0
for an empty extraction before the divisor guard, so the claim that the
empty sequence raises InsufficientData (in either mode) is false; the
error occurs exactly for a non-empty sequence with a non-positive divisor,
which means sample mode with exactly one observation. -/

/-- C2 (amended): variance and stdev fail with InsufficientData exactly
when sample mode is requested and the extracted sequence has exactly one
element; an empty extraction returns 0 in both modes. -/
theorem variance_stdev_insufficientData_iff
    (input : JSVal) (key : Option String) (sample : Bool) (sqrtFn : ℚ → ℚ)
    (nums : List ℚ) (hE : extractNumbers input key = .ok nums) :
    (variance input key sample = .error .insufficientData ↔
      sample = true ∧ nums.length = 1) ∧
    (stdev sqrtFn input key sample = .error .insufficientData ↔
      sample = true ∧ nums.length = 1) := by
  have hdiv : ∀ (r : ℚ),
      (if nums.length = 0 then Except.ok (ε := StatError) (0 : ℚ)
        else if (if sample then (nums.length : ℤ) - 1 else (nums.length : ℤ)) ≤ 0 then
          Except.error .insufficientData
        else Except.ok r) = .error .insufficientData ↔
      sample = true ∧ nums.length = 1 := by
    intro r
    by_cases h0 : nums.length = 0
    · simp [h0]
    · rw [if_neg h0]
      by_cases hs : sample
      · subst hs
        by_cases h1 : nums.length = 1
        · simp [h1]
        · have hgt : ¬ ((nums.length : ℤ) - 1 ≤ 0) := by omega
          simp [hgt, h1]
      · have hb : sample = false := by revert hs; cases sample <;> simp
        subst hb
        have hgt : ¬ ((nums.length : ℤ) ≤ 0) := by omega
        simp [hgt]
  constructor
  · rw [variance, hE]
    exact hdiv _
  · rw [stdev, hE]
    exact hdiv _

/-- C2 witness: the theorem applied to the singleton array [5] in sample
mode, where the error does occur. -/
theorem variance_stdev_insufficientData_witness :
    variance (.varr [.vnum 5]) none true = .error .insufficientData :=
  (variance_stdev_insufficientData_iff (.varr [.vnum 5]) none true id [5] rfl).1.mpr
    ⟨rfl, rfl⟩

/-- C2 counterexample: sample-mode variance of the empty array returns 0
successfully, while the claim requires InsufficientData for every
sample-mode input with fewer than 2 observations. -/
theorem variance_empty_sample_counterexample :
    variance (.varr []) none true = .ok 0 ∧
      (Except.ok (0 : ℚ) : Except StatError ℚ) ≠ .error .insufficientData := by
  exact ⟨rfl, by simp⟩

/-- C3: variance([5], sample) fails with InsufficientData, and
variance([], population) returns 0. -/
theorem variance_single_sample_and_empty_population :
    variance (.varr [.vnum 5]) none true = .error .insufficientData ∧
      variance (.varr []) none false = .ok 0 :=
  ⟨rfl, rfl⟩

/-! ### C10.  percentile validates p before looking at the input. -/

/-- C10: for any p outside 0..100 and absolutely any input value (array or
not, numeric or not), percentile fails with InvalidRange: the range check
precedes extraction. -/
theorem percentile_validates_range_first
    (input : JSVal) (p : ℚ) (key : Option String) (h : p < 0 ∨ 100 < p) :
    percentile input p key = .error .invalidRange := by
  rw [percentile, if_pos h]

/-- C10 witness: p = 101 on a non-array, non-numeric input. -/
theorem percentile_validates_witness :
    percentile (.vbool true) 101 none = .error .invalidRange :=
  percentile_validates_range_first (.vbool true) 101 none (Or.inr (by decide))

/-! ### C5.  Characterisation of extraction. -/

theorem isNullOrUndefined_finiteNum (v : JSVal) (h : isNullOrUndefined v = true) :
    finiteNum? v = none := by
  cases v <;> simp_all [isNullOrUndefined, finiteNum?]

theorem extractGo_spec (l : List JSVal) : ∀ (i : Nat),
    extractGo l i =
      match firstInvalid l i with
      | some e => .error (.nonNumericValue e.1 e.2)
      | none => .ok (keptNumbers l) := by
  induction l with
  | nil => intro i; rfl
  | cons v rest ih =>
    intro i
    rw [extractGo, firstInvalid]
    by_cases hn : isNullOrUndefined v
    · rw [if_pos hn, if_pos (by simp [hn]), ih]
      have hf : finiteNum? v = none := isNullOrUndefined_finiteNum v hn
      cases hFI : firstInvalid rest (i + 1) <;>
        simp [keptNumbers, hf]
    · rw [if_neg hn]
      cases hf : finiteNum? v with
      | some q =>
        rw [if_pos (by simp [hf]), ih]
        cases hFI : firstInvalid rest (i + 1) <;>
          simp [keptNumbers, hf]
      | none =>
        rw [if_neg (by simp [hn, hf])]

/-- C5: extraction is exactly the spec's pipeline: if some projected value
is neither null/undefined nor a finite number, the result is
NonNumericValue at the least such index carrying that value (no partial
sequence); otherwise the result is the finite numbers in order with
null/undefined silently dropped — in particular an input that is empty
after projection yields the empty sequence, not an error. -/
theorem extractNumbers_characterization (elems : List JSVal) (key : Option String) :
    extractNumbers (.varr elems) key =
      match firstInvalid (mappedOf elems key) 0 with
      | some e => .error (.nonNumericValue e.1 e.2)
      | none => .ok (keptNumbers (mappedOf elems key)) := by
  rw [extractNumbers]
  by_cases h : elems.length = 0
  · have he : elems = [] := List.length_eq_zero.mp h
    subst he
    cases key with
    | none => simp [mappedOf, firstInvalid, keptNumbers]
    | some k =>
      by_cases hk : k.isEmpty <;>
        simp [mappedOf, firstInvalid, keptNumbers, hk]
  · rw [if_neg h]
    exact extractGo_spec _ 0

/-! ### C7.  Percentile boundaries. -/

theorem foldl_min_spec (xs : List ℚ) : ∀ (a : ℚ),
    (xs.foldl min a = a ∨ xs.foldl min a ∈ xs) ∧ xs.foldl min a ≤ a ∧
      ∀ y ∈ xs, xs.foldl min a ≤ y := by
  induction xs with
  | nil => intro a; simp
  | cons x rest ih =>
    intro a
    rcases ih (min a x) with ⟨hmem, hle, hall⟩
    refine ⟨?_, ?_, ?_⟩
    · rcases hmem with h | h
      · rcases le_total a x with hax | hxa
        · exact Or.inl (by rw [List.foldl_cons, h, min_eq_left hax])
        · exact Or.inr (by rw [List.foldl_cons, h, min_eq_right hxa]; exact List.mem_cons_self x rest)
      · exact Or.inr (List.mem_cons_of_mem x h)
    · exact le_trans hle (min_le_left a x)
    · intro y hy
      rcases List.mem_cons.mp hy with h | h
      · subst h; exact le_trans hle (min_le_right a y)
      · exact hall y h

theorem foldl_max_spec (xs : List ℚ) : ∀ (a : ℚ),
    (xs.foldl max a = a ∨ xs.foldl max a ∈ xs) ∧ a ≤ xs.foldl max a ∧
      ∀ y ∈ xs, y ≤ xs.foldl max a := by
  induction xs with
  | nil => intro a; simp
  | cons x rest ih =>
    intro a
    rcases ih (max a x) with ⟨hmem, hle, hall⟩
    refine ⟨?_, ?_, ?_⟩
    · rcases hmem with h | h
      · rcases le_total a x with hax | hxa
        · exact Or.inr (by rw [List.foldl_cons, h, max_eq_right hax]; exact List.mem_cons_self x rest)
        · exact Or.inl (by rw [List.foldl_cons, h, max_eq_left hxa])
      · exact Or.inr (List.mem_cons_of_mem x h)
    · exact le_trans (le_max_left a x) hle
    · intro y hy
      rcases List.mem_cons.mp hy with h | h
      · subst h; exact le_trans (le_max_right a y) hle
      · exact hall y h

theorem jsMin_is_min (nums : List ℚ) (hne : nums ≠ []) :
    jsMin nums ∈ nums ∧ ∀ y ∈ nums, jsMin nums ≤ y := by
  cases nums with
  | nil => exact absurd rfl hne
  | cons x rest =>
    rcases foldl_min_spec rest x with ⟨hmem, hle, hall⟩
    refine ⟨?_, ?_⟩
    · rcases hmem with h | h
      · rw [jsMin, h]; exact List.mem_cons_self x rest
      · exact List.mem_cons_of_mem x h
    · intro y hy
      rcases List.mem_cons.mp hy with h | h
      · subst h; exact hle
      · exact hall y h

theorem jsMax_is_max (nums : List ℚ) (hne : nums ≠ []) :
    jsMax nums ∈ nums ∧ ∀ y ∈ nums, y ≤ jsMax nums := by
  cases nums with
  | nil => exact absurd rfl hne
  | cons x rest =>
    rcases foldl_max_spec rest x with ⟨hmem, hle, hall⟩
    refine ⟨?_, ?_⟩
    · rcases hmem with h | h
      · rw [jsMax, h]; exact List.mem_cons_self x rest
      · exact List.mem_cons_of_mem x h
    · intro y hy
      rcases List.mem_cons.mp hy with h | h
      · subst h; exact hle
      · exact hall y h

/-- C7: on any input whose extraction is non-empty, percentile at p = 0
returns exactly the minimum of the extracted sequence and percentile at
p = 100 returns exactly the maximum, both through the direct Math.min /
Math.max branches that bypass interpolation. -/
theorem percentile_boundary_min_max
    (input : JSVal) (key : Option String) (nums : List ℚ)
    (hE : extractNumbers input key = .ok nums) (hne : nums ≠ []) :
    (percentile input 0 key = .ok (jsMin nums) ∧ jsMin nums ∈ nums ∧
      ∀ y ∈ nums, jsMin nums ≤ y) ∧
    (percentile input 100 key = .ok (jsMax nums) ∧ jsMax nums ∈ nums ∧
      ∀ y ∈ nums, y ≤ jsMax nums) := by
  have hlen : ¬ nums.length = 0 := by
    intro h; exact hne (List.length_eq_zero.mp h)
  constructor
  · refine ⟨?_, (jsMin_is_min nums hne).1, (jsMin_is_min nums hne).2⟩
    rw [percentile, if_neg (by norm_num), hE]
    dsimp only
    rw [if_neg hlen, if_pos rfl]
  · refine ⟨?_, (jsMax_is_max nums hne).1, (jsMax_is_max nums hne).2⟩
    rw [percentile, if_neg (by norm_num), hE]
    dsimp only
    rw [if_neg hlen, if_neg (by norm_num), if_pos rfl]

/-- C7 witness: the theorem applied to the array [3, 1]. -/
theorem percentile_boundary_witness :
    percentile (.varr [.vnum 3, .vnum 1]) 0 none = .ok (jsMin [3, 1]) ∧
      percentile (.varr [.vnum 3, .vnum 1]) 100 none = .ok (jsMax [3, 1]) :=
  ⟨(percentile_boundary_min_max (.varr [.vnum 3, .vnum 1]) none [3, 1] rfl
      (by decide)).1.1,
   (percentile_boundary_min_max (.varr [.vnum 3, .vnum 1]) none [3, 1] rfl
      (by decide)).2.1⟩

/-! ### Working-array cell lemmas -/

theorem lget_eq_getElem (l : List ℚ) (i : Nat) (h : i < l.length) : lget l i = l[i] := by
  unfold lget
  rw [List.getD_eq_getElem?_getD, List.getElem?_eq_getElem h]
  rfl

theorem lget_set_self (l : List ℚ) (i : Nat) (v : ℚ) (h : i < l.length) :
    lget (l.set i v) i = v := by
  unfold lget
  rw [List.getD_eq_getElem?_getD, List.getElem?_set_self (by simpa using h)]
  rfl

theorem lget_set_ne (l : List ℚ) (i j : Nat) (v : ℚ) (h : i ≠ j) :
    lget (l.set i v) j = lget l j := by
  unfold lget
  rw [List.getD_eq_getElem?_getD, List.getD_eq_getElem?_getD, List.getElem?_set_ne h]

theorem length_lswap (l : List ℚ) (i j : Nat) : (lswap l i j).length = l.length := by
  unfold lswap
  simp

theorem lget_lswap_fst (l : List ℚ) (i j : Nat) (hi : i < l.length) (hj : j < l.length) :
    lget (lswap l i j) i = lget l j := by
  unfold lswap
  by_cases hij : i = j
  · subst hij
    rw [List.set_set]
    exact lget_set_self l i _ hi
  · rw [lget_set_ne _ j i _ (Ne.symm hij)]
    exact lget_set_self l i _ hi

theorem lget_lswap_snd (l : List ℚ) (i j : Nat) (hj : j < l.length) :
    lget (lswap l i j) j = lget l i := by
  unfold lswap
  exact lget_set_self _ j _ (by simpa using hj)

theorem lget_lswap_other (l : List ℚ) (i j x : Nat) (hxi : x ≠ i) (hxj : x ≠ j) :
    lget (lswap l i j) x = lget l x := by
  unfold lswap
  rw [lget_set_ne _ j x _ (Ne.symm hxj), lget_set_ne _ i x _ (Ne.symm hxi)]

theorem count_set (l : List ℚ) : ∀ (i : Nat) (v a : ℚ), i < l.length →
    List.count a (l.set i v) + List.count a [lget l i] =
      List.count a l + List.count a [v] := by
  induction l with
  | nil => intro i v a h; simp at h
  | cons x xs ih =>
    intro i v a h
    cases i with
    | zero =>
      simp only [List.set_cons_zero, List.count_cons, List.count_nil, lget, List.getD_cons_zero]
      omega
    | succ n =>
      have h' : n < xs.length := by simpa using h
      have hih := ih n v a h'
      simp only [List.set_cons_succ, List.count_cons, List.count_nil, lget,
        List.getD_cons_succ] at *
      omega

theorem lswap_perm (l : List ℚ) (i j : Nat) (hi : i < l.length) (hj : j < l.length) :
    (lswap l i j).Perm l := by
  rw [List.perm_iff_count]
  intro a
  by_cases hij : i = j
  · subst hij
    show List.count a ((l.set i (lget l i)).set i (lget l i)) = _
    rw [List.set_set]
    have h1 := count_set l i (lget l i) a hi
    omega
  · show List.count a ((l.set i (lget l j)).set j (lget l i)) = _
    have h1 := count_set l i (lget l j) a hi
    have h2 := count_set (l.set i (lget l j)) j (lget l i) a (by simpa using hj)
    rw [lget_set_ne l i j _ hij] at h2
    omega

/-! ### Partition scan specification -/

theorem partLoop_spec (pivot : ℚ) (right : Nat) :
    ∀ (arr : List ℚ) (s i : Nat), s ≤ i → i ≤ right → right < arr.length →
      (∀ x, s ≤ x → x < i → ¬ lget arr x < pivot) →
      (partLoop pivot right arr s i).1.length = arr.length ∧
      (partLoop pivot right arr s i).1.Perm arr ∧
      s ≤ (partLoop pivot right arr s i).2 ∧
      (partLoop pivot right arr s i).2 ≤ right ∧
      (∀ x, x < s ∨ right ≤ x →
        lget (partLoop pivot right arr s i).1 x = lget arr x) ∧
      (∀ x, s ≤ x → x < (partLoop pivot right arr s i).2 →
        lget (partLoop pivot right arr s i).1 x < pivot) ∧
      (∀ x, (partLoop pivot right arr s i).2 ≤ x → x < right →
        ¬ lget (partLoop pivot right arr s i).1 x < pivot) := by
  intro arr s i
  induction arr, s, i using partLoop.induct pivot right with
  | case1 arr s i h1 h2 ih =>
    intro hsi hir hlen hge
    have hslen : s < arr.length := by omega
    have hilen : i < arr.length := by omega
    have hswlen : right < (lswap arr s i).length := by rw [length_lswap]; exact hlen
    have hge' : ∀ x, s + 1 ≤ x → x < i + 1 → ¬ lget (lswap arr s i) x < pivot := by
      intro x hx1 hx2
      by_cases hxi : x = i
      · subst hxi
        have hsx : s < x := by omega
        rw [lget_lswap_snd arr s x hilen]
        exact hge s le_rfl hsx
      · have hxs : x ≠ s := by omega
        rw [lget_lswap_other arr s i x hxs hxi]
        exact hge x (by omega) (by omega)
    obtain ⟨ihlen, ihperm, ihs, ihr, ihframe, ihlt, ihge⟩ :=
      ih (by omega) (by omega) hswlen hge'
    rw [partLoop, if_pos h1, if_pos h2]
    refine ⟨?_, ?_, ?_, ?_, ?_, ?_, ?_⟩
    · rw [ihlen, length_lswap]
    · exact ihperm.trans (lswap_perm arr s i hslen hilen)
    · omega
    · exact ihr
    · intro x hx
      have hx1 : x < s + 1 ∨ right ≤ x := by omega
      rw [ihframe x hx1]
      rcases hx with hx | hx
      · exact lget_lswap_other arr s i x (by omega) (by omega)
      · exact lget_lswap_other arr s i x (by omega) (by omega)
    · intro x hx1 hx2
      by_cases hxs : x = s
      · subst hxs
        rw [ihframe x (by omega), lget_lswap_fst arr x i hslen hilen]
        exact h2
      · exact ihlt x (by omega) hx2
    · exact ihge
  | case2 arr s i h1 h2 ih =>
    intro hsi hir hlen hge
    have hge' : ∀ x, s ≤ x → x < i + 1 → ¬ lget arr x < pivot := by
      intro x hx1 hx2
      by_cases hxi : x = i
      · subst hxi; exact h2
      · exact hge x hx1 (by omega)
    obtain ⟨ihlen, ihperm, ihs, ihr, ihframe, ihlt, ihge⟩ :=
      ih (by omega) (by omega) hlen hge'
    rw [partLoop, if_pos h1, if_neg h2]
    exact ⟨ihlen, ihperm, ihs, ihr, ihframe, ihlt, ihge⟩
  | case3 arr s i h1 =>
    intro hsi hir hlen hge
    rw [partLoop, if_neg h1]
    refine ⟨rfl, List.Perm.refl arr, le_rfl, by omega, fun x _ => rfl, ?_, ?_⟩
    · intro x hx1 hx2
      omega
    · intro x hx1 hx2
      exact hge x hx1 (by omega)

theorem qsPartition_spec (arr : List ℚ) (left right pivotIndex : Nat)
    (hlp : left ≤ pivotIndex) (hpr : pivotIndex ≤ right) (hr : right < arr.length) :
    (qsPartition arr left right pivotIndex).1.length = arr.length ∧
    (qsPartition arr left right pivotIndex).1.Perm arr ∧
    left ≤ (qsPartition arr left right pivotIndex).2 ∧
    (qsPartition arr left right pivotIndex).2 ≤ right ∧
    lget (qsPartition arr left right pivotIndex).1 (qsPartition arr left right pivotIndex).2 =
      lget arr pivotIndex ∧
    (∀ x, left ≤ x → x < (qsPartition arr left right pivotIndex).2 →
      lget (qsPartition arr left right pivotIndex).1 x < lget arr pivotIndex) ∧
    (∀ x, (qsPartition arr left right pivotIndex).2 < x → x ≤ right →
      ¬ lget (qsPartition arr left right pivotIndex).1 x < lget arr pivotIndex) ∧
    (∀ x, x < left ∨ right < x →
      lget (qsPartition arr left right pivotIndex).1 x = lget arr x) := by
  have hlr : left ≤ right := le_trans hlp hpr
  have hpl : pivotIndex < arr.length := by omega
  have hlen1 : (lswap arr pivotIndex right).length = arr.length := length_lswap arr pivotIndex right
  have h1r : lget (lswap arr pivotIndex right) right = lget arr pivotIndex :=
    lget_lswap_snd arr pivotIndex right hr
  obtain ⟨plen, pperm, ps1, ps2, pframe, plt, pge⟩ :=
    partLoop_spec (lget arr pivotIndex) right (lswap arr pivotIndex right) left left
      le_rfl hlr (by omega)
      (fun x hx1 hx2 => absurd (lt_of_le_of_lt hx1 hx2) (lt_irrefl left))
  have hq : qsPartition arr left right pivotIndex =
      (lswap (partLoop (lget arr pivotIndex) right (lswap arr pivotIndex right) left left).1
        right
        (partLoop (lget arr pivotIndex) right (lswap arr pivotIndex right) left left).2,
       (partLoop (lget arr pivotIndex) right (lswap arr pivotIndex right) left left).2) := rfl
  rw [hq]
  set a2 := (partLoop (lget arr pivotIndex) right (lswap arr pivotIndex right) left left).1
    with ha2
  set s := (partLoop (lget arr pivotIndex) right (lswap arr pivotIndex right) left left).2
    with hs
  have hra2 : right < a2.length := by omega
  have hsa2 : s < a2.length := by omega
  refine ⟨?_, ?_, ps1, ps2, ?_, ?_, ?_, ?_⟩
  · rw [length_lswap]
    omega
  · exact ((lswap_perm a2 right s hra2 hsa2).trans pperm).trans
      (lswap_perm arr pivotIndex right hpl hr)
  · rw [lget_lswap_snd a2 right s hsa2, pframe right (Or.inr le_rfl)]
    exact h1r
  · intro x hx1 hx2
    rw [lget_lswap_other a2 right s x (by omega) (by omega)]
    exact plt x hx1 hx2
  · intro x hx1 hx2
    by_cases hxr : x = right
    · rw [hxr, lget_lswap_fst a2 right s hra2 hsa2]
      exact pge s le_rfl (by omega)
    · rw [lget_lswap_other a2 right s x hxr (by omega)]
      exact pge x (by omega) (by omega)
  · intro x hx
    have hx1 : x ≠ right := by omega
    have hx2 : x ≠ s := by omega
    rw [lget_lswap_other a2 right s x hx1 hx2, pframe x (by omega)]
    exact lget_lswap_other arr pivotIndex right x (by omega) hx1

/-! ### Preservation of the window invariant -/

theorem lswap_preserves_outBound (arr : List ℚ) (lo hi a b : Nat)
    (ha1 : lo ≤ a) (ha2 : a ≤ hi) (hb1 : lo ≤ b) (hb2 : b ≤ hi)
    (hal : a < arr.length) (hbl : b < arr.length)
    (h : OutBound arr lo hi) : OutBound (lswap arr a b) lo hi := by
  obtain ⟨hL, hR⟩ := h
  have hlen : (lswap arr a b).length = arr.length := length_lswap arr a b
  constructor
  · intro i j hij hlj hjl
    rw [hlen] at hjl
    rw [lget_lswap_other arr a b i (by omega) (by omega)]
    by_cases hja : j = a
    · rw [hja, lget_lswap_fst arr a b hal hbl]
      exact hL i b hij hb1 hbl
    · by_cases hjb : j = b
      · rw [hjb, lget_lswap_snd arr a b hbl]
        exact hL i a hij ha1 hal
      · rw [lget_lswap_other arr a b j hja hjb]
        exact hL i j hij hlj hjl
  · intro i j hij hhj hjl
    rw [hlen] at hjl
    rw [lget_lswap_other arr a b j (by omega) (by omega)]
    by_cases hia : i = a
    · rw [hia, lget_lswap_fst arr a b hal hbl]
      exact hR b j hb2 hhj hjl
    · by_cases hib : i = b
      · rw [hib, lget_lswap_snd arr a b hbl]
        exact hR a j ha2 hhj hjl
      · rw [lget_lswap_other arr a b i hia hib]
        exact hR i j hij hhj hjl

theorem partLoop_preserves_outBound (pivot : ℚ) (right lo hi : Nat) :
    ∀ (arr : List ℚ) (s i : Nat), lo ≤ s → s ≤ i → right ≤ hi + 1 → hi < arr.length →
      OutBound arr lo hi → OutBound (partLoop pivot right arr s i).1 lo hi := by
  intro arr s i
  induction arr, s, i using partLoop.induct pivot right with
  | case1 arr s i h1 h2 ih =>
    intro hlos hsi hrhi hhi hOB
    rw [partLoop, if_pos h1, if_pos h2]
    exact ih (by omega) (by omega) hrhi (by rw [length_lswap]; exact hhi)
      (lswap_preserves_outBound arr lo hi s i hlos (by omega) (by omega) (by omega)
        (by omega) (by omega) hOB)
  | case2 arr s i h1 h2 ih =>
    intro hlos hsi hrhi hhi hOB
    rw [partLoop, if_pos h1, if_neg h2]
    exact ih hlos (by omega) hrhi hhi hOB
  | case3 arr s i h1 =>
    intro hlos hsi hrhi hhi hOB
    rw [partLoop, if_neg h1]
    exact hOB

theorem qsPartition_preserves_outBound (arr : List ℚ) (left right pivotIndex : Nat)
    (hlp : left ≤ pivotIndex) (hpr : pivotIndex ≤ right) (hr : right < arr.length)
    (hOB : OutBound arr left right) :
    OutBound (qsPartition arr left right pivotIndex).1 left right := by
  have hlr : left ≤ right := le_trans hlp hpr
  have hOB1 : OutBound (lswap arr pivotIndex right) left right :=
    lswap_preserves_outBound arr left right pivotIndex right hlp hpr hlr le_rfl
      (by omega) hr hOB
  obtain ⟨plen, pperm, ps1, ps2, pframe, plt, pge⟩ :=
    partLoop_spec (lget arr pivotIndex) right (lswap arr pivotIndex right) left left
      le_rfl hlr (by rw [length_lswap]; exact hr)
      (fun x hx1 hx2 => absurd (lt_of_le_of_lt hx1 hx2) (lt_irrefl left))
  have hOB2 : OutBound
      (partLoop (lget arr pivotIndex) right (lswap arr pivotIndex right) left left).1
      left right :=
    partLoop_preserves_outBound (lget arr pivotIndex) right left right
      (lswap arr pivotIndex right) left left le_rfl le_rfl (by omega)
      (by rw [length_lswap]; exact hr) hOB1
  have hfin : OutBound
      (lswap (partLoop (lget arr pivotIndex) right (lswap arr pivotIndex right) left left).1
        right
        (partLoop (lget arr pivotIndex) right (lswap arr pivotIndex right) left left).2)
      left right :=
    lswap_preserves_outBound _ left right right _ hlr le_rfl ps1 ps2
      (by rw [plen, length_lswap]; exact hr) (by rw [plen, length_lswap]; omega) hOB2
  exact hfin

/-! ### The order-statistic lemma: a sorted permutation agrees at any
globally partitioned position. -/

theorem sorted_lget_of_partitioned (s l : List ℚ) (hp : s.Perm l)
    (hs : List.Sorted (· ≤ ·) s) (k : Nat) (hk : k < l.length)
    (hlo : ∀ i, i < k → lget l i ≤ lget l k)
    (hhi : ∀ j, k < j → j < l.length → lget l k ≤ lget l j) :
    lget s k = lget l k := by
  have hsl : s.length = l.length := hp.length_eq
  have hks : k < s.length := by omega
  have hmono : ∀ i j (hi : i < s.length) (hj : j < s.length), i ≤ j → s[i] ≤ s[j] := by
    intro i j hi hj hij
    rcases Nat.eq_or_lt_of_le hij with h | h
    · subst h; exact le_rfl
    · exact List.pairwise_iff_getElem.mp hs i j hi hj h
  have hc1 : l.countP (fun x => decide (x < lget l k)) ≤ k := by
    have hsplit : (l.take k).countP (fun x => decide (x < lget l k)) +
          (l.drop k).countP (fun x => decide (x < lget l k)) =
        l.countP (fun x => decide (x < lget l k)) := by
      rw [← List.countP_append, List.take_append_drop]
    have hdrop0 : (l.drop k).countP (fun x => decide (x < lget l k)) = 0 := by
      rw [List.countP_eq_zero]
      intro a ha
      obtain ⟨i, hi, hget⟩ := List.mem_iff_getElem.mp ha
      rw [List.getElem_drop] at hget
      simp only [decide_eq_true_eq]
      rw [← hget]
      have hkl : k + i < l.length := by
        have := List.length_drop k l
        omega
      rw [← lget_eq_getElem l (k + i) hkl]
      rcases Nat.eq_zero_or_pos i with h0 | h0
      · subst h0; simp
      · exact not_lt.mpr (hhi (k + i) (by omega) hkl)
    have htake : (l.take k).countP (fun x => decide (x < lget l k)) ≤ k := by
      refine le_trans (List.countP_le_length _) ?_
      rw [List.length_take]
      omega
    omega
  have hc2 : k < l.countP (fun x => decide (x ≤ lget l k)) := by
    have hsplit : (l.take (k + 1)).countP (fun x => decide (x ≤ lget l k)) +
          (l.drop (k + 1)).countP (fun x => decide (x ≤ lget l k)) =
        l.countP (fun x => decide (x ≤ lget l k)) := by
      rw [← List.countP_append, List.take_append_drop]
    have htake : (l.take (k + 1)).countP (fun x => decide (x ≤ lget l k)) = k + 1 := by
      have hlt : (l.take (k + 1)).length = k + 1 := by
        rw [List.length_take]
        omega
      rw [List.countP_eq_length.mpr, hlt]
      intro a ha
      obtain ⟨i, hi, hget⟩ := List.mem_iff_getElem.mp ha
      rw [List.getElem_take] at hget
      simp only [decide_eq_true_eq]
      rw [← hget]
      have hik : i < k + 1 := by rw [hlt] at hi; exact hi
      have hil : i < l.length := by omega
      rw [← lget_eq_getElem l i hil]
      rcases Nat.eq_or_lt_of_le (Nat.le_of_lt_succ hik) with h | h
      · subst h; exact le_rfl
      · exact hlo i h
    omega
  have hcs1 : s.countP (fun x => decide (x < lget l k)) ≤ k := by
    rw [hp.countP_eq]; exact hc1
  have hcs2 : k < s.countP (fun x => decide (x ≤ lget l k)) := by
    rw [hp.countP_eq]; exact hc2
  rcases lt_trichotomy (lget s k) (lget l k) with hlt | heq | hgt
  · exfalso
    have htake : (s.take (k + 1)).countP (fun x => decide (x < lget l k)) = k + 1 := by
      have hlt2 : (s.take (k + 1)).length = k + 1 := by
        rw [List.length_take]
        omega
      rw [List.countP_eq_length.mpr, hlt2]
      intro a ha
      obtain ⟨i, hi, hget⟩ := List.mem_iff_getElem.mp ha
      rw [List.getElem_take] at hget
      simp only [decide_eq_true_eq]
      rw [← hget]
      have hik : i < k + 1 := by rw [hlt2] at hi; exact hi
      have his : i < s.length := by omega
      calc s[i] ≤ s[k] := hmono i k his hks (by omega)
        _ < lget l k := by rw [← lget_eq_getElem s k hks]; exact hlt
    have hsplit : (s.take (k + 1)).countP (fun x => decide (x < lget l k)) +
          (s.drop (k + 1)).countP (fun x => decide (x < lget l k)) =
        s.countP (fun x => decide (x < lget l k)) := by
      rw [← List.countP_append, List.take_append_drop]
    omega
  · exact heq
  · exfalso
    have hdrop0 : (s.drop k).countP (fun x => decide (x ≤ lget l k)) = 0 := by
      rw [List.countP_eq_zero]
      intro a ha
      obtain ⟨i, hi, hget⟩ := List.mem_iff_getElem.mp ha
      rw [List.getElem_drop] at hget
      simp only [decide_eq_true_eq]
      rw [← hget]
      have hkl : k + i < s.length := by
        have := List.length_drop k s
        omega
      refine not_le.mpr ?_
      calc lget l k < lget s k := hgt
        _ = s[k] := lget_eq_getElem s k hks
        _ ≤ s[k + i] := hmono k (k + i) hks hkl (by omega)
    have hsplit : (s.take k).countP (fun x => decide (x ≤ lget l k)) +
          (s.drop k).countP (fun x => decide (x ≤ lget l k)) =
        s.countP (fun x => decide (x ≤ lget l k)) := by
      rw [← List.countP_append, List.take_append_drop]
    have htake : (s.take k).countP (fun x => decide (x ≤ lget l k)) ≤ k := by
      refine le_trans (List.countP_le_length _) ?_
      rw [List.length_take]
      omega
    omega

/-! ### Sorting facts -/

theorem sortList_sorted (l : List ℚ) : List.Sorted (· ≤ ·) (sortList l) :=
  List.sorted_insertionSort _ l

theorem sortList_perm (l : List ℚ) : (sortList l).Perm l :=
  List.perm_insertionSort _ l

theorem sortList_length (l : List ℚ) : (sortList l).length = l.length :=
  (sortList_perm l).length_eq

/-! ### C9.  The quickselect loop always terminates through the found
branch under the in-range precondition. -/

theorem qsLoop_found (pick : Nat → Nat) :
    ∀ (fuel t : Nat) (arr : List ℚ) (k left right : Nat),
      left ≤ k → k ≤ right → right < arr.length → right - left < fuel →
      ∃ v arr2 t2, qsLoop pick fuel t arr k left right = some (v, arr2, t2, false) := by
  intro fuel
  induction fuel with
  | zero =>
    intro t arr k left right h1 h2 h3 h4
    omega
  | succ n ih =>
    intro t arr k left right h1 h2 h3 h4
    have hlr : left ≤ right := le_trans h1 h2
    have hpi1 : left ≤ left + pick t % (right - left + 1) := Nat.le_add_right _ _
    have hpi2 : left + pick t % (right - left + 1) ≤ right := by
      have := Nat.mod_lt (pick t) (y := right - left + 1) (by omega)
      omega
    obtain ⟨plen, pperm, ps1, ps2, pmid, plt, pge, pframe⟩ :=
      qsPartition_spec arr left right (left + pick t % (right - left + 1)) hpi1 hpi2 h3
    rw [qsLoop, if_pos hlr]
    dsimp only
    set q := qsPartition arr left right (left + pick t % (right - left + 1)) with hq
    by_cases hk : k = q.2
    · rw [if_pos hk]
      exact ⟨_, _, _, rfl⟩
    · rw [if_neg hk]
      by_cases hk2 : k < q.2
      · rw [if_pos hk2]
        exact ih (t + 1) q.1 k left (q.2 - 1) h1 (by omega) (by omega) (by omega)
      · rw [if_neg hk2]
        exact ih (t + 1) q.1 k (q.2 + 1) right (by omega) h2 (by omega) (by omega)

/-- C9: for any array and any window 0 ≤ left ≤ k ≤ right < length, and
for every pivot-choice stream, the quickselect loop terminates within
right - left + 1 iterations (any fuel exceeding the window width
suffices), and it returns through the target-rank-found branch — the
recorded fallback flag is false, so the return after the loop is
unreachable under this precondition. -/
theorem quickselect_terminates_found_branch (pick : Nat → Nat) (fuel t : Nat)
    (arr : List ℚ) (k left right : Nat)
    (h1 : left ≤ k) (h2 : k ≤ right) (h3 : right < arr.length)
    (h4 : right - left < fuel) :
    ∃ v arr2 t2, qsLoop pick fuel t arr k left right = some (v, arr2, t2, false) :=
  qsLoop_found pick fuel t arr k left right h1 h2 h3 h4

/-- C9 witness: the theorem applied to the array [3, 1, 2] with k = 1 and
the constant pivot stream. -/
theorem quickselect_terminates_witness :
    ∃ v arr2 t2,
      qsLoop (fun _ => 0) 3 0 [3, 1, 2] 1 0 2 = some (v, arr2, t2, false) :=
  quickselect_terminates_found_branch (fun _ => 0) 3 0 [3, 1, 2] 1 0 2
    (by decide) (by decide) (by decide) (by decide)

/-! ### Value correctness of the quickselect loop -/

theorem qsLoop_sorted (pick : Nat → Nat) (orig : List ℚ) :
    ∀ (fuel t : Nat) (arr : List ℚ) (k left right : Nat),
      arr.Perm orig → OutBound arr left right →
      left ≤ k → k ≤ right → right < arr.length → right - left < fuel →
      ∃ arr2 t2, qsLoop pick fuel t arr k left right =
          some (lget (sortList orig) k, arr2, t2, false) ∧
        arr2.Perm orig ∧ arr2.length = arr.length ∧
        (∀ i j, i ≤ k → k ≤ j → j < arr2.length → lget arr2 i ≤ lget arr2 j) := by
  intro fuel
  induction fuel with
  | zero =>
    intro t arr k left right hperm hOB h1 h2 h3 h4
    omega
  | succ n ih =>
    intro t arr k left right hperm hOB h1 h2 h3 h4
    have hlr : left ≤ right := le_trans h1 h2
    have hpi1 : left ≤ left + pick t % (right - left + 1) := Nat.le_add_right _ _
    have hpi2 : left + pick t % (right - left + 1) ≤ right := by
      have := Nat.mod_lt (pick t) (y := right - left + 1) (by omega)
      omega
    obtain ⟨plen, pperm, ps1, ps2, pmid, plt, pge, pframe⟩ :=
      qsPartition_spec arr left right (left + pick t % (right - left + 1)) hpi1 hpi2 h3
    obtain ⟨qL, qR⟩ :=
      qsPartition_preserves_outBound arr left right (left + pick t % (right - left + 1))
        hpi1 hpi2 h3 hOB
    rw [qsLoop, if_pos hlr]
    dsimp only
    set q := qsPartition arr left right (left + pick t % (right - left + 1)) with hq
    by_cases hk : k = q.2
    · subst hk
      rw [if_pos rfl]
      have hup : ∀ j, q.2 ≤ j → j < q.1.length → lget q.1 q.2 ≤ lget q.1 j := by
        intro j hj hjl
        rcases Nat.eq_or_lt_of_le hj with hj' | hj'
        · rw [← hj']
        · by_cases hjr : j ≤ right
          · rw [pmid]
            exact le_of_not_lt (pge j hj' hjr)
          · exact qR q.2 j ps2 (by omega) hjl
      have hdown : ∀ i, i ≤ q.2 → lget q.1 i ≤ lget q.1 q.2 := by
        intro i hi
        rcases Nat.eq_or_lt_of_le hi with hi' | hi'
        · rw [hi']
        · by_cases hil : i < left
          · exact qL i q.2 hil ps1 (by omega)
          · rw [pmid]
            exact le_of_lt (plt i (by omega) hi')
      have hvalue : lget (sortList orig) q.2 = lget q.1 q.2 :=
        sorted_lget_of_partitioned (sortList orig) q.1
          ((sortList_perm orig).trans (pperm.trans hperm).symm) (sortList_sorted orig)
          q.2 (by omega) (fun i hi => hdown i (le_of_lt hi))
          (fun j hj hjl => hup j (le_of_lt hj) hjl)
      refine ⟨q.1, t + 1, ?_, pperm.trans hperm, plen,
        fun i j hi hj hjl => le_trans (hdown i hi) (hup j hj hjl)⟩
      rw [hvalue]
    · rw [if_neg hk]
      by_cases hk2 : k < q.2
      · rw [if_pos hk2]
        have hq1 : 1 ≤ q.2 := by omega
        have hOB2 : OutBound q.1 left (q.2 - 1) := by
          constructor
          · exact qL
          · intro i j hij hhj hjl
            by_cases hjr : j ≤ right
            · have hjq : q.2 ≤ j := by omega
              have hpvj : lget arr (left + pick t % (right - left + 1)) ≤ lget q.1 j := by
                rcases Nat.eq_or_lt_of_le hjq with hj' | hj'
                · have hjeq : lget q.1 j = lget arr (left + pick t % (right - left + 1)) := by
                    rw [← hj']
                    exact pmid
                  exact le_of_eq hjeq.symm
                · exact le_of_not_lt (pge j hj' hjr)
              by_cases hil : i < left
              · exact qL i j hil (by omega) hjl
              · refine le_trans (le_of_lt (plt i (by omega) (by omega))) hpvj
            · exact qR i j (by omega) (by omega) hjl
        obtain ⟨arr2, t2, heq, hperm2, hlen2, hpost2⟩ :=
          ih (t + 1) q.1 k left (q.2 - 1) (pperm.trans hperm) hOB2 h1 (by omega)
            (by omega) (by omega)
        exact ⟨arr2, t2, heq, hperm2, by omega, hpost2⟩
      · rw [if_neg hk2]
        have hkq : q.2 < k := by omega
        have hOB2 : OutBound q.1 (q.2 + 1) right := by
          constructor
          · intro i j hij hlj hjl
            by_cases hil : i < left
            · exact qL i j hil (by omega) hjl
            · have hi_le : lget q.1 i ≤ lget arr (left + pick t % (right - left + 1)) := by
                rcases Nat.eq_or_lt_of_le (Nat.le_of_lt_succ hij) with hi' | hi'
                · rw [hi', pmid]
                · exact le_of_lt (plt i (by omega) hi')
              by_cases hjr : j ≤ right
              · exact le_trans hi_le (le_of_not_lt (pge j (by omega) hjr))
              · exact qR i j (by omega) (by omega) hjl
          · exact qR
        obtain ⟨arr2, t2, heq, hperm2, hlen2, hpost2⟩ :=
          ih (t + 1) q.1 k (q.2 + 1) right (pperm.trans hperm) hOB2 (by omega) h2
            (by omega) (by omega)
        exact ⟨arr2, t2, heq, hperm2, by omega, hpost2⟩

theorem quickselect_spec (pick : Nat → Nat) (orig : List ℚ) (t : Nat) (arr : List ℚ)
    (k left right : Nat)
    (hperm : arr.Perm orig) (hOB : OutBound arr left right)
    (h1 : left ≤ k) (h2 : k ≤ right) (h3 : right < arr.length) :
    (quickselect pick t arr k left right).1 = lget (sortList orig) k ∧
    (quickselect pick t arr k left right).2.1.Perm orig ∧
    (quickselect pick t arr k left right).2.1.length = arr.length ∧
    (∀ i j, i ≤ k → k ≤ j → j < (quickselect pick t arr k left right).2.1.length →
      lget (quickselect pick t arr k left right).2.1 i ≤
        lget (quickselect pick t arr k left right).2.1 j) := by
  obtain ⟨arr2, t2, heq, hp2, hl2, hpost⟩ :=
    qsLoop_sorted pick orig (right - left + 2) t arr k left right hperm hOB h1 h2 h3
      (by omega)
  have hqs : quickselect pick t arr k left right = (lget (sortList orig) k, arr2, t2) := by
    unfold quickselect
    rw [heq]
  rw [hqs]
  exact ⟨rfl, hp2, by rw [hl2], fun i j hi hj hjl => hpost i j hi hj (by simpa using hjl)⟩

theorem outBound_trivial (l : List ℚ) : OutBound l 0 (l.length - 1) := by
  constructor
  · intro i j hij hlj hjl
    exact absurd hij (Nat.not_lt_zero i)
  · intro i j hij hhj hjl
    exact absurd hjl (by omega)

/-- Evaluation of the hybrid median when extraction succeeds and is
non-empty: below the threshold or at an odd count it equals the sort-based
reference median exactly, and at an even count at/above the threshold it
equals the reference median rounded to 10 digits (the two quickselect
calls over the shared working copy deliver the two middle order
statistics). -/
theorem median_eval (pick : Nat → Nat) (t : Nat) (input : JSVal) (key : Option String)
    (nums : List ℚ) (hE : extractNumbers input key = .ok nums) (hne : nums ≠ []) :
    median pick t input key =
      .ok (if nums.length < THRESHOLD ∨ nums.length % 2 = 1 then sortBasedMedian nums
        else toFixedNumber (sortBasedMedian nums) 10) := by
  have hlen0 : nums.length ≠ 0 := fun h => hne (List.length_eq_zero.mp h)
  rw [median, hE]
  dsimp only
  rw [if_neg hlen0]
  by_cases hsmall : nums.length < THRESHOLD
  · rw [if_pos hsmall, if_pos (Or.inl hsmall), sortBasedMedian, if_neg hlen0]
  · rw [if_neg hsmall]
    have h32 : 32 ≤ nums.length := by
      have hT : THRESHOLD = 32 := rfl
      omega
    by_cases hodd : nums.length % 2 ≠ 0
    · rw [if_pos hodd]
      obtain ⟨hv, hp, hl, hpost⟩ :=
        quickselect_spec pick nums t nums (nums.length / 2) 0 (nums.length - 1)
          (List.Perm.refl nums) (outBound_trivial nums) (Nat.zero_le _) (by omega)
          (by omega)
      rw [hv, if_pos (Or.inr (by omega)), sortBasedMedian, if_neg hlen0, medianOf]
      rw [sortList_length, if_pos (by omega : nums.length % 2 = 1)]
    · rw [if_neg hodd]
      obtain ⟨hv1, hp1, hl1, hpost1⟩ :=
        quickselect_spec pick nums t nums (nums.length / 2 - 1) 0 (nums.length - 1)
          (List.Perm.refl nums) (outBound_trivial nums) (Nat.zero_le _) (by omega)
          (by omega)
      set r1 := quickselect pick t nums (nums.length / 2 - 1) 0 (nums.length - 1) with hr1
      have hOB2 : OutBound r1.2.1 (nums.length / 2) (r1.2.1.length - 1) := by
        constructor
        · intro i j hij hlj hjl
          exact hpost1 i j (by omega) (by omega) hjl
        · intro i j hij hhj hjl
          exact absurd hjl (by omega)
      obtain ⟨hv2, hp2, hl2, hpost2⟩ :=
        quickselect_spec pick nums r1.2.2 r1.2.1 (nums.length / 2) (nums.length / 2)
          (r1.2.1.length - 1) hp1 hOB2 le_rfl (by omega) (by omega)
      rw [hv1, hv2]
      rw [if_neg (not_or.mpr ⟨hsmall, by omega⟩), sortBasedMedian, if_neg hlen0, medianOf]
      rw [sortList_length, if_neg (by omega : ¬ nums.length % 2 = 1)]

/-- C1 (amended): for every successful non-empty extraction and every
pivot-choice stream, the hybrid median agrees with the sort-based
reference median exactly in the below-threshold branch and the odd-count
at/above-threshold branch, and equals the reference median rounded to 10
decimal digits in the even-count at/above-threshold branch (both middle
ranks being selected from one shared working copy).  The unrounded
equality claimed for the even at/above-threshold case is refuted by the
counterexample. -/
theorem median_hybrid_agrees_with_sort (pick : Nat → Nat) (t : Nat) (input : JSVal)
    (key : Option String) (nums : List ℚ)
    (hE : extractNumbers input key = .ok nums) (hne : nums ≠ []) :
    median pick t input key =
      .ok (if nums.length < THRESHOLD ∨ nums.length % 2 = 1 then sortBasedMedian nums
        else toFixedNumber (sortBasedMedian nums) 10) :=
  median_eval pick t input key nums hE hne

/-- C1 witness: the theorem applied to the two-element array [1, 2],
which takes the below-threshold branch. -/
theorem median_hybrid_agrees_witness :
    median (fun _ => 0) 0 (.varr [.vnum 1, .vnum 2]) none = .ok (sortBasedMedian [1, 2]) := by
  have h := median_hybrid_agrees_with_sort (fun _ => 0) 0 (.varr [.vnum 1, .vnum 2]) none
    [1, 2] rfl (by decide)
  simpa [THRESHOLD] using h

theorem sortList_replicate (n : Nat) (q : ℚ) :
    sortList (List.replicate n q) = List.replicate n q := by
  apply List.Sorted.insertionSort_eq
  induction n with
  | zero => exact List.sorted_nil
  | succ m ih =>
    rw [List.replicate_succ]
    refine List.Pairwise.cons ?_ ih
    intro b hb
    rw [List.eq_of_mem_replicate hb]

/-- C1 counterexample: on 32 copies of 1/10^11 the hybrid median returns
the rounded average 0, while the median computed by fully sorting the
sequence is 1/10^11; the two differ, refuting the claimed exact agreement
in the even at/above-threshold branch. -/
theorem median_hybrid_rounding_counterexample :
    median (fun _ => 0) 0 (.varr (List.replicate 32 (.vnum (1 / 10 ^ 11)))) none =
        .ok (toFixedNumber (sortBasedMedian (List.replicate 32 (1 / 10 ^ 11))) 10) ∧
      sortBasedMedian (List.replicate 32 ((1 : ℚ) / 10 ^ 11)) = 1 / 10 ^ 11 ∧
      toFixedNumber (sortBasedMedian (List.replicate 32 ((1 : ℚ) / 10 ^ 11))) 10 = 0 ∧
      (0 : ℚ) ≠ 1 / 10 ^ 11 := by
  have hmed : sortBasedMedian (List.replicate 32 ((1 : ℚ) / 10 ^ 11)) = 1 / 10 ^ 11 := by
    rw [sortBasedMedian, if_neg (by simp), sortList_replicate, medianOf]
    rw [List.length_replicate]
    rw [if_neg (by omega)]
    show (lget (List.replicate 32 ((1 : ℚ) / 10 ^ 11)) 15 +
      lget (List.replicate 32 ((1 : ℚ) / 10 ^ 11)) 16) / 2 = 1 / 10 ^ 11
    have h15 : lget (List.replicate 32 ((1 : ℚ) / 10 ^ 11)) 15 = 1 / 10 ^ 11 := by
      rw [lget, List.getD_eq_getElem?_getD, List.getElem?_replicate_of_lt (by omega)]
      rfl
    have h16 : lget (List.replicate 32 ((1 : ℚ) / 10 ^ 11)) 16 = 1 / 10 ^ 11 := by
      rw [lget, List.getD_eq_getElem?_getD, List.getElem?_replicate_of_lt (by omega)]
      rfl
    rw [h15, h16]
    ring
  refine ⟨?_, hmed, ?_, by norm_num⟩
  · have hE : extractNumbers (.varr (List.replicate 32 (.vnum (1 / 10 ^ 11)))) none =
        .ok (List.replicate 32 ((1 : ℚ) / 10 ^ 11)) := rfl
    have h := median_eval (fun _ => 0) 0
      (.varr (List.replicate 32 (.vnum (1 / 10 ^ 11)))) none
      (List.replicate 32 ((1 : ℚ) / 10 ^ 11)) hE (by simp)
    simpa [THRESHOLD] using h
  · rw [hmed]
    norm_num [toFixedNumber, jsRound, Rat.floor_def']

/-! ### C6.  Mode. -/

theorem lookupC_of_not_mem (freq : List (ℚ × Nat)) (n : ℚ)
    (h : n ∉ freq.map Prod.fst) : lookupC freq n = 0 := by
  induction freq with
  | nil => rfl
  | cons e rest ih =>
    rw [lookupC]
    rw [List.map_cons, List.mem_cons] at h
    push_neg at h
    rw [if_neg (fun he => h.1 he.symm)]
    exact ih h.2

theorem lookupC_of_mem (freq : List (ℚ × Nat)) (n : ℚ) (c : Nat)
    (hnd : (freq.map Prod.fst).Nodup) (h : (n, c) ∈ freq) : lookupC freq n = c := by
  induction freq with
  | nil => exact absurd h (List.not_mem_nil _)
  | cons e rest ih =>
    rw [List.map_cons, List.nodup_cons] at hnd
    rw [lookupC]
    rcases List.mem_cons.mp h with he | he
    · rw [← he]
      rw [if_pos rfl]
    · have hne : e.1 ≠ n := by
        intro heq
        exact hnd.1 (heq ▸ List.mem_map_of_mem Prod.fst he)
      rw [if_neg hne]
      exact ih hnd.2 he

theorem freqSet_keys (freq : List (ℚ × Nat)) (n : ℚ) (c : Nat) :
    (freqSet freq n c).map Prod.fst =
      if n ∈ freq.map Prod.fst then freq.map Prod.fst
      else freq.map Prod.fst ++ [n] := by
  induction freq with
  | nil => simp [freqSet]
  | cons e rest ih =>
    rw [freqSet]
    by_cases he : e.1 = n
    · rw [if_pos he]
      have hmem : n ∈ (e :: rest).map Prod.fst := by
        rw [List.map_cons, he]
        exact List.mem_cons_self n _
      rw [if_pos hmem, List.map_cons, List.map_cons, he]
    · rw [if_neg he, List.map_cons, List.map_cons, ih]
      by_cases hn : n ∈ rest.map Prod.fst
      · rw [if_pos hn, if_pos (List.mem_cons_of_mem e.1 hn)]
      · rw [if_neg hn, if_neg ?_, List.cons_append]
        rw [List.mem_cons]
        push_neg
        exact ⟨fun h => he h.symm, hn⟩

theorem freqSet_mem (freq : List (ℚ × Nat)) (n : ℚ) (c : Nat)
    (hnd : (freq.map Prod.fst).Nodup) :
    ∀ e ∈ freqSet freq n c, (e ∈ freq ∧ e.1 ≠ n) ∨ e = (n, c) := by
  induction freq with
  | nil =>
    intro e he
    rw [freqSet] at he
    rcases List.mem_cons.mp he with h | h
    · exact Or.inr h
    · exact absurd h (List.not_mem_nil e)
  | cons f rest ih =>
    rw [List.map_cons, List.nodup_cons] at hnd
    intro e he
    rw [freqSet] at he
    by_cases hf : f.1 = n
    · rw [if_pos hf] at he
      rcases List.mem_cons.mp he with h | h
      · exact Or.inr h
      · left
        refine ⟨List.mem_cons_of_mem f h, ?_⟩
        intro hen
        exact hnd.1 ((hf.trans hen.symm) ▸ List.mem_map_of_mem Prod.fst h)
    · rw [if_neg hf] at he
      rcases List.mem_cons.mp he with h | h
      · subst h
        exact Or.inl ⟨List.mem_cons_self e rest, hf⟩
      · rcases ih hnd.2 e h with h2 | h2
        · exact Or.inl ⟨List.mem_cons_of_mem f h2.1, h2.2⟩
        · exact Or.inr h2

theorem modeInv_step (processed : List ℚ) (freq : List (ℚ × Nat)) (m : Nat) (n : ℚ)
    (hInv : ModeInv processed freq m) :
    ModeInv (processed ++ [n]) (freqSet freq n (lookupC freq n + 1))
      (if m < lookupC freq n + 1 then lookupC freq n + 1 else m) := by
  obtain ⟨hnd, hent, hcov, hmax⟩ := hInv
  have hlook : lookupC freq n = processed.count n := by
    by_cases hn : n ∈ freq.map Prod.fst
    · obtain ⟨e, he, hfst⟩ := List.mem_map.mp hn
      have he2 := hent e he
      have : e = (n, e.2) := by
        rw [← hfst]
      rw [this] at he
      rw [lookupC_of_mem freq n e.2 hnd he, he2.1, hfst]
    · rw [lookupC_of_not_mem freq n hn]
      have hnp : n ∉ processed := fun h => hn (hcov n h)
      rw [List.count_eq_zero.mpr hnp]
  refine ⟨?_, ?_, ?_, ?_⟩
  · rw [freqSet_keys]
    by_cases hn : n ∈ freq.map Prod.fst
    · rw [if_pos hn]
      exact hnd
    · rw [if_neg hn]
      rw [List.nodup_append]
      exact ⟨hnd, List.nodup_singleton n, by simpa using hn⟩
  · intro e he
    rcases freqSet_mem freq n (lookupC freq n + 1) hnd e he with ⟨hold, hne⟩ | hnew
    · have h2 := hent e hold
      constructor
      · have hz : List.count e.1 [n] = 0 := by
          simp [List.count_cons, hne]
        rw [List.count_append, hz, h2.1]
        omega
      · exact List.mem_append_left _ h2.2
    · rw [hnew]
      constructor
      · show lookupC freq n + 1 = (processed ++ [n]).count n
        have hz : List.count n [n] = 1 := by
          simp
        rw [List.count_append, hz, hlook]
      · exact List.mem_append_right _ (List.mem_singleton_self n)
  · intro x hx
    rw [freqSet_keys]
    rcases List.mem_append.mp hx with hx | hx
    · have := hcov x hx
      by_cases hn : n ∈ freq.map Prod.fst
      · rw [if_pos hn]; exact this
      · rw [if_neg hn]; exact List.mem_append_left _ this
    · rw [List.mem_singleton] at hx
      subst hx
      by_cases hn : x ∈ freq.map Prod.fst
      · rw [if_pos hn]; exact hn
      · rw [if_neg hn]; exact List.mem_append_right _ (List.mem_singleton_self x)
  · intro x
    rw [List.count_append]
    by_cases hx : x = n
    · subst hx
      have hz : List.count x [x] = 1 := by simp
      rw [hz, hlook]
      split <;> omega
    · have h1 := hmax x
      have h2 : List.count x [n] = 0 := by
        simp [List.count_cons, hx]
      rw [h2, hlook]
      split <;> omega

theorem modeFold_inv : ∀ (rest processed : List ℚ) (freq : List (ℚ × Nat)) (m : Nat),
    ModeInv processed freq m →
    ModeInv (processed ++ rest) (modeFold rest freq m).1 (modeFold rest freq m).2 := by
  intro rest
  induction rest with
  | nil =>
    intro processed freq m h
    simpa using h
  | cons n rest' ih =>
    intro processed freq m h
    rw [modeFold]
    have hstep := modeInv_step processed freq m n h
    have := ih (processed ++ [n]) _ _ hstep
    rwa [List.append_assoc, List.singleton_append] at this

/-- C6: whenever mode succeeds, its output is sorted ascending, has no
duplicates, and every returned value occurs in the extracted sequence with
a frequency that is maximal among all values; an empty extraction yields
the empty sequence. -/
theorem mode_sorted_nodup_max_frequency (input : JSVal) (key : Option String)
    (nums res : List ℚ) (hE : extractNumbers input key = .ok nums)
    (hM : mode input key = .ok res) :
    List.Sorted (· ≤ ·) res ∧ res.Nodup ∧
      (∀ v ∈ res, v ∈ nums ∧ ∀ w ∈ nums, nums.count w ≤ nums.count v) ∧
      (nums = [] → res = []) := by
  rw [mode, hE] at hM
  dsimp only at hM
  by_cases h0 : nums.length = 0
  · rw [if_pos h0] at hM
    injection hM with hM
    subst hM
    have : nums = [] := List.length_eq_zero.mp h0
    exact ⟨List.sorted_nil, List.nodup_nil, by simp, fun _ => rfl⟩
  · rw [if_neg h0] at hM
    injection hM with hM
    have hInv := modeFold_inv nums [] [] 0
      ⟨List.nodup_nil, by simp, by simp, by simp⟩
    rw [List.nil_append] at hInv
    obtain ⟨hnd, hent, hcov, hmax⟩ := hInv
    have hLnd : ((modeFold nums [] 0).1.filter
        (fun e => e.2 = (modeFold nums [] 0).2)).map Prod.fst |>.Nodup :=
      ((List.filter_sublist _).map Prod.fst).nodup hnd
    refine ⟨?_, ?_, ?_, fun h => absurd (by rw [h]; rfl) h0⟩
    · rw [← hM]
      exact sortList_sorted _
    · rw [← hM]
      exact ((sortList_perm _).nodup_iff).mpr hLnd
    · intro v hv
      rw [← hM] at hv
      have hv2 : v ∈ ((modeFold nums [] 0).1.filter
          (fun e => e.2 = (modeFold nums [] 0).2)).map Prod.fst :=
        (sortList_perm _).mem_iff.mp hv
      obtain ⟨e, he, hfst⟩ := List.mem_map.mp hv2
      obtain ⟨heF, heM⟩ := List.mem_filter.mp he
      have heM2 : e.2 = (modeFold nums [] 0).2 := by
        simpa using heM
      have h2 := hent e heF
      refine ⟨hfst ▸ h2.2, ?_⟩
      intro w hw
      have := hmax w
      rw [← hfst, ← h2.1, heM2]
      exact this

/-- C6 witness: the theorem applied to [10, 20, 20, 30, 50], whose mode
is [20]. -/
theorem mode_sorted_witness :
    List.Sorted (· ≤ ·) [(20 : ℚ)] ∧ [(20 : ℚ)].Nodup ∧
      (∀ v ∈ [(20 : ℚ)], v ∈ [(10 : ℚ), 20, 20, 30, 50] ∧
        ∀ w ∈ [(10 : ℚ), 20, 20, 30, 50],
          List.count w [(10 : ℚ), 20, 20, 30, 50] ≤
            List.count v [(10 : ℚ), 20, 20, 30, 50]) ∧
      ([(10 : ℚ), 20, 20, 30, 50] = [] → [(20 : ℚ)] = []) :=
  mode_sorted_nodup_max_frequency
    (.varr [.vnum 10, .vnum 20, .vnum 20, .vnum 30, .vnum 50]) none
    [10, 20, 20, 30, 50] [20] rfl rfl

/-! ### C8.  No calculator writes to the caller's cell. -/

theorem readA_writeA_ne (σ : Store) (pw p : Nat) (l : List JSVal) (h : p ≠ pw) :
    readA (writeA σ pw l) p = readA σ p := by
  unfold readA writeA
  rw [List.getD_eq_getElem?_getD, List.getD_eq_getElem?_getD,
    List.getElem?_set_ne (fun he => h he.symm)]

theorem readA_append (σ : Store) (p : Nat) (l : List JSVal) (h : p < σ.length) :
    readA (σ ++ [l]) p = readA σ p := by
  unfold readA
  rw [List.getD_eq_getElem?_getD, List.getD_eq_getElem?_getD,
    List.getElem?_append_left h]

theorem readA_fresh_write (σ : Store) (p : Nat) (hp : p < σ.length)
    (l l2 : List JSVal) :
    readA (writeA (σ ++ [l]) σ.length l2) p = readA σ p := by
  rw [readA_writeA_ne _ _ _ _ (by omega)]
  exact readA_append σ p l hp

theorem readA_fresh_write2 (σ : Store) (p : Nat) (hp : p < σ.length)
    (l l2 l3 : List JSVal) :
    readA (writeA (writeA (σ ++ [l]) σ.length l2) σ.length l3) p = readA σ p := by
  rw [readA_writeA_ne _ _ _ _ (by omega)]
  exact readA_fresh_write σ p hp l l2

/-- C8: no calculator mutates the caller's input collection.  With the
caller's array in a store cell at p and every working copy ([...nums],
res) allocated as a fresh cell — exactly as in the source — the cell at p
reads the same after any call to mean, median, mode, range, variance,
stdev or percentile as before it; the only writes (quickselect's swaps
and the in-place sorts) land on the freshly allocated cells. -/
theorem calculators_preserve_caller_array (pick : Nat → Nat) (t : Nat) (σ : Store)
    (p : Nat) (key : Option String) (pct : ℚ) (sample : Bool) (sqrtFn : ℚ → ℚ)
    (hp : p < σ.length) :
    readA (meanS σ p key).2 p = readA σ p ∧
    readA (medianS pick t σ p key).2 p = readA σ p ∧
    readA (modeS σ p key).2 p = readA σ p ∧
    readA (rangeS σ p key).2 p = readA σ p ∧
    readA (varianceS σ p key sample).2 p = readA σ p ∧
    readA (stdevS sqrtFn σ p key sample).2 p = readA σ p ∧
    readA (percentileS σ p pct key).2 p = readA σ p := by
  refine ⟨rfl, ?_, ?_, rfl, rfl, rfl, ?_⟩
  · rw [medianS]
    cases hE : extractNumbers (.varr (readA σ p)) key with
    | error e => rfl
    | ok nums =>
      dsimp only
      by_cases h0 : nums.length = 0
      · rw [if_pos h0]
      · rw [if_neg h0]
        by_cases hsmall : nums.length < THRESHOLD
        · rw [if_pos hsmall]
          exact readA_fresh_write σ p hp _ _
        · rw [if_neg hsmall]
          by_cases hodd : nums.length % 2 ≠ 0
          · rw [if_pos hodd]
            exact readA_fresh_write σ p hp _ _
          · rw [if_neg hodd]
            exact readA_fresh_write2 σ p hp _ _ _
  · rw [modeS]
    cases hE : extractNumbers (.varr (readA σ p)) key with
    | error e => rfl
    | ok nums =>
      dsimp only
      by_cases h0 : nums.length = 0
      · rw [if_pos h0]
      · rw [if_neg h0]
        exact readA_fresh_write σ p hp _ _
  · rw [percentileS]
    by_cases hr : pct < 0 ∨ 100 < pct
    · rw [if_pos hr]
    · rw [if_neg hr]
      cases hE : extractNumbers (.varr (readA σ p)) key with
      | error e => rfl
      | ok nums =>
        dsimp only
        by_cases h0 : nums.length = 0
        · rw [if_pos h0]
        · rw [if_neg h0]
          by_cases hz : pct = 0
          · rw [if_pos hz]
          · rw [if_neg hz]
            by_cases hc : pct = 100
            · rw [if_pos hc]
            · rw [if_neg hc]
              by_cases hli : Rat.floor (pct / 100 *
                  (((decodeNums (readA (sortS (alloc σ (encodeNums nums)).1
                    (alloc σ (encodeNums nums)).2) (alloc σ (encodeNums nums)).2)).length : ℚ)
                    - 1)) = jsCeil (pct / 100 *
                  (((decodeNums (readA (sortS (alloc σ (encodeNums nums)).1
                    (alloc σ (encodeNums nums)).2) (alloc σ (encodeNums nums)).2)).length : ℚ)
                    - 1))
              · rw [if_pos hli]
                exact readA_fresh_write σ p hp _ _
              · rw [if_neg hli]
                exact readA_fresh_write σ p hp _ _

/-- C8 witness: the theorem applied to a one-cell store holding [1, 2]. -/
theorem calculators_preserve_witness :
    readA (meanS [[JSVal.vnum 1, JSVal.vnum 2]] 0 none).2 0 =
        readA [[JSVal.vnum 1, JSVal.vnum 2]] 0 ∧
      readA (medianS (fun _ => 0) 0 [[JSVal.vnum 1, JSVal.vnum 2]] 0 none).2 0 =
        readA [[JSVal.vnum 1, JSVal.vnum 2]] 0 ∧
      readA (modeS [[JSVal.vnum 1, JSVal.vnum 2]] 0 none).2 0 =
        readA [[JSVal.vnum 1, JSVal.vnum 2]] 0 ∧
      readA (rangeS [[JSVal.vnum 1, JSVal.vnum 2]] 0 none).2 0 =
        readA [[JSVal.vnum 1, JSVal.vnum 2]] 0 ∧
      readA (varianceS [[JSVal.vnum 1, JSVal.vnum 2]] 0 none true).2 0 =
        readA [[JSVal.vnum 1, JSVal.vnum 2]] 0 ∧
      readA (stdevS id [[JSVal.vnum 1, JSVal.vnum 2]] 0 none true).2 0 =
        readA [[JSVal.vnum 1, JSVal.vnum 2]] 0 ∧
      readA (percentileS [[JSVal.vnum 1, JSVal.vnum 2]] 0 50 none).2 0 =
        readA [[JSVal.vnum 1, JSVal.vnum 2]] 0 :=
  calculators_preserve_caller_array (fun _ => 0) 0 [[JSVal.vnum 1, JSVal.vnum 2]] 0
    none 50 true id (by decide)

end Mintstats
